import Mathlib

/-!
# Verification of `opencode_auth.rs` (openchamber desktop)

Shallow embedding of `src/packages/desktop/src-tauri/src/opencode_auth.rs`:
a file-backed JSON credential store with three operations, `read_auth`,
`write_auth` (copy-to-backup before overwrite) and `remove_provider_auth`.

Modelling choices:
* `serde_json::Value` is embedded as the inductive `Json`; numbers are
  modelled as `Int` (the payloads this module handles are opaque; the float
  variant of `serde_json::Number` is outside a shallow embedding).
* File contents are `List Char`; the serializer mirrors
  `serde_json::to_string_pretty` (2-space indentation) and the parser mirrors
  `serde_json::from_str` on JSON documents.
* The filesystem is the pair of files the module touches (`auth.json` and
  `auth.json.openchamber.backup`), plus a fault-injection oracle saying which
  primitive `tokio::fs` operation succeeds, plus a trace of the primitive
  filesystem operations performed.
-/

/-- Embedding of `serde_json::Value` (numbers restricted to integers). -/
inductive Json where
  | null
  | bool (b : Bool)
  | num (n : Int)
  | str (s : String)
  | arr (elems : List Json)
  | obj (entries : List (String × Json))

/-- `Value::as_object` succeeds exactly on the `obj` constructor. -/
def Json.isObject : Json → Bool
  | .obj _ => true
  | _ => false

/-! ## Characters and digits -/

/-- JSON whitespace as skipped by `serde_json`'s parser: space, tab, LF, CR. -/
def isJsonWs (c : Char) : Bool :=
  c.toNat = 32 || c.toNat = 9 || c.toNat = 10 || c.toNat = 13

/-- Rust `char::is_whitespace` (the Unicode `White_Space` property), used by
`str::trim` in `read_auth`. -/
def isRustWs (c : Char) : Bool :=
  (9 ≤ c.toNat && c.toNat ≤ 13) || c.toNat = 32 || c.toNat = 133 ||
    c.toNat = 160 || c.toNat = 5760 || (8192 ≤ c.toNat && c.toNat ≤ 8202) ||
    c.toNat = 8232 || c.toNat = 8233 || c.toNat = 8239 || c.toNat = 8287 ||
    c.toNat = 12288

/-- The decimal digit character for `d < 10`. -/
def digitCh (d : Nat) : Char := Char.ofNat (48 + d)

/-- Fuel-driven decimal printing of a natural number (most significant digit
first), mirroring the `Display` implementation used by `serde_json` for
integers.  The accumulator collects the low-order digits already produced. -/
def natDigitsAux : Nat → Nat → List Char → List Char
  | 0, _, acc => acc
  | fuel + 1, n, acc =>
    if n < 10 then digitCh n :: acc
    else natDigitsAux fuel (n / 10) (digitCh (n % 10) :: acc)

/-- Decimal digits of `n`, most significant first. -/
def natDigits (n : Nat) : List Char := natDigitsAux (n + 1) n []

/-- Proof-level specification of `natDigits` by recursion on `n / 10`. -/
def digitsOf (n : Nat) : List Char :=
  if _h : n < 10 then [digitCh n] else digitsOf (n / 10) ++ [digitCh (n % 10)]
decreasing_by exact Nat.div_lt_self (by omega) (by omega)

/-- Decimal rendering of an `i64` as `serde_json` serializes integers. -/
def intChars : Int → List Char
  | .ofNat m => natDigits m
  | .negSucc m => '-' :: natDigits (m + 1)

/-- Hexadecimal digit character for `d < 16` (lowercase, as emitted by
`serde_json` in `\u00XX` escapes). -/
def hexCh (d : Nat) : Char :=
  if d < 10 then Char.ofNat (48 + d) else Char.ofNat (87 + d)

/-- The escape `serde_json` emits for one character inside a JSON string:
`"` and `\` get a backslash escape, the five named control characters get
their short escapes, other control characters get `\u00XX`, and everything
else is written raw. -/
def escChar (c : Char) : List Char :=
  if c = '"' then ['\\', '"']
  else if c = '\\' then ['\\', '\\']
  else if c.toNat < 32 then
    if c.toNat = 8 then ['\\', 'b']
    else if c.toNat = 9 then ['\\', 't']
    else if c.toNat = 10 then ['\\', 'n']
    else if c.toNat = 12 then ['\\', 'f']
    else if c.toNat = 13 then ['\\', 'r']
    else ['\\', 'u', '0', '0', hexCh (c.toNat / 16), hexCh (c.toNat % 16)]
  else [c]

/-- Escape every character of a string body. -/
def escList : List Char → List Char
  | [] => []
  | c :: cs => escChar c ++ escList cs

/-- `n` spaces of indentation. -/
def spaces (n : Nat) : List Char := List.replicate n ' '

/-! ## Serializer: `serde_json::to_string_pretty` (2-space indent) -/

mutual

/-- Pretty-print a JSON value at indentation level `ind`, exactly as
`serde_json::to_string_pretty` does. -/
def printVal (ind : Nat) : Json → List Char
  | .null => 'n' :: ['u', 'l', 'l']
  | .bool true => 't' :: ['r', 'u', 'e']
  | .bool false => 'f' :: ['a', 'l', 's', 'e']
  | .num n => intChars n
  | .str s => '"' :: (escList s.toList ++ ['"'])
  | .arr [] => ['[', ']']
  | .arr (x :: xs) =>
    '[' :: (printItems (ind + 2) (x :: xs) ++ '\n' :: spaces ind ++ [']'])
  | .obj [] => ['{', '}']
  | .obj (e :: es) =>
    '{' :: (printMembers (ind + 2) (e :: es) ++ '\n' :: spaces ind ++ ['}'])

/-- Array elements, each on its own line at indentation `ind`, separated by
commas. -/
def printItems (ind : Nat) : List Json → List Char
  | [] => []
  | [x] => '\n' :: (spaces ind ++ printVal ind x)
  | x :: y :: xs =>
    '\n' :: (spaces ind ++ printVal ind x ++ ',' :: printItems ind (y :: xs))

/-- Object members `"key": value`, each on its own line at indentation `ind`,
separated by commas. -/
def printMembers (ind : Nat) : List (String × Json) → List Char
  | [] => []
  | [(k, v)] =>
    '\n' :: (spaces ind ++ '"' :: (escList k.toList ++ '"' :: ':' :: ' ' :: printVal ind v))
  | (k, v) :: e :: es =>
    '\n' :: (spaces ind ++ '"' :: (escList k.toList ++ '"' :: ':' :: ' ' ::
      (printVal ind v ++ ',' :: printMembers ind (e :: es))))

end

/-! ## Parser: `serde_json::from_str` -/

/-- Skip JSON whitespace. -/
def skipWs : List Char → List Char
  | [] => []
  | c :: cs => if isJsonWs c then skipWs cs else c :: cs

/-- Numeric value of a decimal digit character. -/
def digitVal (c : Char) : Nat := c.toNat - 48

/-- Decimal value of a digit string. -/
def digitsToNat (ds : List Char) : Nat :=
  ds.foldl (fun a c => a * 10 + digitVal c) 0

/-- Value of one hexadecimal digit, if any. -/
def hexVal (c : Char) : Option Nat :=
  if 48 ≤ c.toNat ∧ c.toNat ≤ 57 then some (c.toNat - 48)
  else if 97 ≤ c.toNat ∧ c.toNat ≤ 102 then some (c.toNat - 87)
  else if 65 ≤ c.toNat ∧ c.toNat ≤ 70 then some (c.toNat - 55)
  else none

/-- Parse the body of a JSON string (after the opening quote) up to and
including the closing quote, undoing escapes; returns the decoded characters
and the remaining input. -/
def parseStrBody : List Char → Option (List Char × List Char)
  | [] => none
  | c :: cs =>
    if c = '"' then some ([], cs)
    else if c = '\\' then
      match cs with
      | [] => none
      | e :: cs2 =>
        if e = '"' then (parseStrBody cs2).map (fun p => ('"' :: p.1, p.2))
        else if e = '\\' then (parseStrBody cs2).map (fun p => ('\\' :: p.1, p.2))
        else if e = '/' then (parseStrBody cs2).map (fun p => ('/' :: p.1, p.2))
        else if e = 'b' then (parseStrBody cs2).map (fun p => ('\x08' :: p.1, p.2))
        else if e = 'f' then (parseStrBody cs2).map (fun p => ('\x0c' :: p.1, p.2))
        else if e = 'n' then (parseStrBody cs2).map (fun p => ('\n' :: p.1, p.2))
        else if e = 'r' then (parseStrBody cs2).map (fun p => ('\r' :: p.1, p.2))
        else if e = 't' then (parseStrBody cs2).map (fun p => ('\t' :: p.1, p.2))
        else if e = 'u' then
          match cs2 with
          | h1 :: h2 :: h3 :: h4 :: cs3 =>
            match hexVal h1, hexVal h2, hexVal h3, hexVal h4 with
            | some a, some b, some c2, some d =>
              (parseStrBody cs3).map
                (fun p => (Char.ofNat (((a * 16 + b) * 16 + c2) * 16 + d) :: p.1, p.2))
            | _, _, _, _ => none
          | _ => none
        else none
    else (parseStrBody cs).map (fun p => (c :: p.1, p.2))

mutual

/-- Fuel-driven recursive-descent parser for one JSON value; the input is
assumed to start at a non-whitespace position. -/
def parseVal : Nat → List Char → Option (Json × List Char)
  | 0, _ => none
  | _ + 1, [] => none
  | f + 1, c :: cs =>
    if c = 'n' then
      match cs with
      | 'u' :: 'l' :: 'l' :: rest => some (.null, rest)
      | _ => none
    else if c = 't' then
      match cs with
      | 'r' :: 'u' :: 'e' :: rest => some (.bool true, rest)
      | _ => none
    else if c = 'f' then
      match cs with
      | 'a' :: 'l' :: 's' :: 'e' :: rest => some (.bool false, rest)
      | _ => none
    else if c = '"' then
      (parseStrBody cs).map (fun p => (.str (String.mk p.1), p.2))
    else if c = '[' then
      let cs1 := skipWs cs
      if cs1.headD ' ' = ']' then some (.arr [], cs1.tail)
      else (parseElems f cs1).map (fun p => (.arr p.1, p.2))
    else if c = '{' then
      let cs1 := skipWs cs
      if cs1.headD ' ' = '}' then some (.obj [], cs1.tail)
      else (parseMembers f cs1).map (fun p => (.obj p.1, p.2))
    else if c = '-' then
      let ds := cs.takeWhile (fun d => d.isDigit)
      let rest := cs.dropWhile (fun d => d.isDigit)
      if ds = [] then none
      else some (.num (-(digitsToNat ds : Int)), rest)
    else if c.isDigit then
      let ds := (c :: cs).takeWhile (fun d => d.isDigit)
      let rest := (c :: cs).dropWhile (fun d => d.isDigit)
      some (.num (Int.ofNat (digitsToNat ds)), rest)
    else none

/-- Parse the elements of a non-empty array, consuming the closing `]`. -/
def parseElems : Nat → List Char → Option (List Json × List Char)
  | 0, _ => none
  | f + 1, cs =>
    match parseVal f (skipWs cs) with
    | none => none
    | some (v, cs1) =>
      match skipWs cs1 with
      | ',' :: cs2 =>
        match parseElems f cs2 with
        | some (vs, cs3) => some (v :: vs, cs3)
        | none => none
      | ']' :: cs2 => some ([v], cs2)
      | _ => none

/-- Parse the members of a non-empty object, consuming the closing `}`. -/
def parseMembers : Nat → List Char → Option (List (String × Json) × List Char)
  | 0, _ => none
  | f + 1, cs =>
    match skipWs cs with
    | '"' :: cs1 =>
      match parseStrBody cs1 with
      | none => none
      | some (k, cs2) =>
        match skipWs cs2 with
        | ':' :: cs3 =>
          match parseVal f (skipWs cs3) with
          | none => none
          | some (v, cs4) =>
            match skipWs cs4 with
            | ',' :: cs5 =>
              match parseMembers f cs5 with
              | some (kvs, cs6) => some ((String.mk k, v) :: kvs, cs6)
              | none => none
            | '}' :: cs5 => some ([(String.mk k, v)], cs5)
            | _ => none
        | _ => none
    | _ => none

end

/-- `serde_json::from_str` on a whole document: one value, then only
whitespace up to the end of input. -/
def parseJson (cs : List Char) : Option Json :=
  let cs1 := skipWs cs
  match parseVal (cs1.length + 1) cs1 with
  | some (v, rest) => if skipWs rest = [] then some v else none
  | none => none

/-- Rust `str::trim`: drop `White_Space` characters from both ends. -/
def trimChars (cs : List Char) : List Char :=
  ((cs.dropWhile isRustWs).reverse.dropWhile isRustWs).reverse

/-! ## Filesystem model -/

/-- The two files the module touches.  `none` means the file does not exist.
The data directory itself carries no observable state beyond these files. -/
structure FsState where
  authFile : Option (List Char)
  backupFile : Option (List Char)

/-- Fault-injection oracle: which primitive `tokio::fs` operation succeeds
during one call. -/
structure FsOracle where
  createDirOk : Bool
  readOk : Bool
  copyOk : Bool
  writeOk : Bool

/-- The oracle under which every filesystem operation succeeds. -/
def allOk : FsOracle := ⟨true, true, true, true⟩

/-- Primitive filesystem operations, recorded in traces. -/
inductive FsOp where
  | createDir
  | existsCheck
  | readFile
  | copyFile
  | writeFile
deriving DecidableEq

/-- Errors surfaced by the module (each is an `anyhow::Error` in the source;
the constructor records which message/kind it carries). -/
inductive AuthError where
  | ioError
  | parseError
  | schemaError
  | validationError
deriving DecidableEq

/-- `read_auth`: return `{}` if `auth.json` does not exist; otherwise read it
(possibly failing), return `{}` if the trimmed contents are empty, and
otherwise parse the trimmed contents as JSON.  The second component is the
trace of filesystem operations performed. -/
def read_auth (o : FsOracle) (s : FsState) : Except AuthError Json × List FsOp :=
  match s.authFile with
  | none => (.ok (Json.obj []), [.existsCheck])
  | some content =>
    if o.readOk then
      let trimmed := trimChars content
      if trimmed = [] then (.ok (Json.obj []), [.existsCheck, .readFile])
      else
        match parseJson trimmed with
        | some v => (.ok v, [.existsCheck, .readFile])
        | none => (.error .parseError, [.existsCheck, .readFile])
    else (.error .ioError, [.existsCheck, .readFile])

/-- `write_auth`: ensure the data directory exists, copy `auth.json` to the
backup if it exists, then write the pretty-printed value.  Returns the
result, the final filesystem state, and the trace.  (The
`Invalid auth file name` branch of the source is unreachable here because the
file name is the constant `auth.json`, which is valid UTF-8.) -/
def write_auth (o : FsOracle) (s : FsState) (auth : Json) :
    Except AuthError Unit × FsState × List FsOp :=
  if o.createDirOk then
    match s.authFile with
    | some content =>
      if o.copyOk then
        let s1 : FsState := ⟨some content, some content⟩
        if o.writeOk then
          (.ok (), ⟨some (printVal 0 auth), some content⟩,
            [.createDir, .existsCheck, .copyFile, .writeFile])
        else (.error .ioError, s1, [.createDir, .existsCheck, .copyFile, .writeFile])
      else (.error .ioError, s, [.createDir, .existsCheck, .copyFile])
    | none =>
      if o.writeOk then
        (.ok (), ⟨some (printVal 0 auth), s.backupFile⟩,
          [.createDir, .existsCheck, .writeFile])
      else (.error .ioError, s, [.createDir, .existsCheck, .writeFile])
  else (.error .ioError, s, [.createDir])

/-- `Map::contains_key` on the entry list. -/
def containsKey (l : List (String × Json)) (key : String) : Bool :=
  l.any (fun p => p.1 == key)

/-- `Map::remove` on the entry list (removes the entry with the given key;
entry lists obtained from a JSON object have pairwise distinct keys). -/
def removeKey : List (String × Json) → String → List (String × Json)
  | [], _ => []
  | (k, v) :: rest, key =>
    if k == key then rest else (k, v) :: removeKey rest key

/-- `remove_provider_auth`: reject an empty provider id, read the store,
require a top-level object, return `false` if the key is absent, otherwise
remove it and write the store back. -/
def remove_provider_auth (o : FsOracle) (s : FsState) (providerId : String) :
    Except AuthError Bool × FsState × List FsOp :=
  if providerId = "" then (.error .validationError, s, [])
  else
    match read_auth o s with
    | (.error e, ops) => (.error e, s, ops)
    | (.ok auth, ops) =>
      match auth with
      | .obj kvs =>
        if containsKey kvs providerId then
          match write_auth o s (.obj (removeKey kvs providerId)) with
          | (.ok _, s2, ops2) => (.ok true, s2, ops ++ ops2)
          | (.error e, s2, ops2) => (.error e, s2, ops ++ ops2)
        else (.ok false, s, ops)
      | _ => (.error .schemaError, s, ops)

/-- The input that follows a printed number must not begin with a digit (it is
`[]`, a comma, a closing bracket, or whitespace in every printed document). -/
def delimOk : List Char → Prop
  | [] => True
  | c :: _ => c.isDigit = false

mutual

/-- Fuel needed by `parseVal` to parse the printed form of `v`. -/
def needVal : Json → Nat
  | .arr xs => 1 + needElems xs
  | .obj es => 1 + needMembers es
  | .null => 1
  | .bool _ => 1
  | .num _ => 1
  | .str _ => 1

/-- Fuel needed by `parseElems` on a printed element list. -/
def needElems : List Json → Nat
  | [] => 0
  | x :: xs => 1 + needVal x + needElems xs

/-- Fuel needed by `parseMembers` on a printed member list. -/
def needMembers : List (String × Json) → Nat
  | [] => 0
  | (_, v) :: es => 1 + needVal v + needMembers es

end

/-! ## Character-level lemmas -/

theorem char_toNat_inj {a b : Char} (h : a.toNat = b.toNat) : a = b := by
  have := congrArg Char.ofNat h
  simpa using this

theorem isDigit_iff {c : Char} : c.isDigit = true ↔ 48 ≤ c.toNat ∧ c.toNat ≤ 57 := by
  simp [Char.isDigit, Char.toNat, UInt32.le_def, BitVec.le_def, UInt32.toNat]

theorem isJsonWs_iff {c : Char} :
    isJsonWs c = true ↔ c.toNat = 32 ∨ c.toNat = 9 ∨ c.toNat = 10 ∨ c.toNat = 13 := by
  simp [isJsonWs, or_assoc]

theorem isRustWs_of_isJsonWs {c : Char} (h : isJsonWs c = true) : isRustWs c = true := by
  rw [isJsonWs_iff] at h
  simp [isRustWs]
  omega

theorem not_isJsonWs_of_isDigit {c : Char} (h : c.isDigit = true) : isJsonWs c = false := by
  rw [isDigit_iff] at h
  rw [Bool.eq_false_iff]
  intro hw
  rw [isJsonWs_iff] at hw
  omega

theorem not_isRustWs_of_isDigit {c : Char} (h : c.isDigit = true) : isRustWs c = false := by
  rw [isDigit_iff] at h
  rw [Bool.eq_false_iff]
  intro hw
  simp [isRustWs] at hw
  omega

theorem isDigit_ne {c : Char} (h : c.isDigit = true) :
    c ≠ 'n' ∧ c ≠ 't' ∧ c ≠ 'f' ∧ c ≠ '"' ∧ c ≠ '[' ∧ c ≠ '{' ∧ c ≠ '-' ∧
      c ≠ ']' ∧ c ≠ '}' ∧ c ≠ ',' := by
  refine ⟨?_, ?_, ?_, ?_, ?_, ?_, ?_, ?_, ?_, ?_⟩ <;>
    (rintro rfl; exact absurd h (by decide))

/-! ## `skipWs` lemmas -/

theorem skipWs_nil : skipWs [] = [] := rfl

theorem skipWs_cons_of_ws {c : Char} (h : isJsonWs c = true) (cs : List Char) :
    skipWs (c :: cs) = skipWs cs := by
  simp [skipWs, h]

theorem skipWs_cons_of_not_ws {c : Char} (h : isJsonWs c = false) (cs : List Char) :
    skipWs (c :: cs) = c :: cs := by
  simp [skipWs, h]

theorem skipWs_append_ws {ws : List Char} (h : ∀ c ∈ ws, isJsonWs c = true)
    (cs : List Char) : skipWs (ws ++ cs) = skipWs cs := by
  induction ws with
  | nil => rfl
  | cons w ws ih =>
    rw [List.cons_append, skipWs_cons_of_ws (h w (by simp)), ih]
    intro c hc
    exact h c (by simp [hc])

theorem skipWs_idem (cs : List Char) : skipWs (skipWs cs) = skipWs cs := by
  induction cs with
  | nil => rfl
  | cons c cs ih =>
    by_cases h : isJsonWs c = true
    · rw [skipWs_cons_of_ws h, ih]
    · rw [Bool.not_eq_true] at h
      rw [skipWs_cons_of_not_ws h, skipWs_cons_of_not_ws h]

theorem allWs_spaces (ind : Nat) : ∀ c ∈ '\n' :: spaces ind, isJsonWs c = true := by
  intro c hc
  rcases List.mem_cons.mp hc with h | h
  · subst h; decide
  · rw [List.eq_of_mem_replicate h]; decide

/-! ## `trimChars` lemmas -/

theorem dropWhile_eq_nil_of_all {p : Char → Bool} {l : List Char}
    (h : ∀ c ∈ l, p c = true) : l.dropWhile p = [] := by
  induction l with
  | nil => rfl
  | cons c cs ih =>
    rw [List.dropWhile_cons_of_pos (h c (by simp))]
    exact ih fun c hc => h c (by simp [hc])

theorem trimChars_of_allWs {l : List Char} (h : ∀ c ∈ l, isRustWs c = true) :
    trimChars l = [] := by
  unfold trimChars
  rw [dropWhile_eq_nil_of_all h]
  rfl

theorem trimChars_eq_self {c d : Char} {l t : List Char}
    (hc : isRustWs c = false) (hd : isRustWs d = false)
    (hhead : l = c :: t) (hlast : l.getLast? = some d) :
    trimChars l = l := by
  obtain ⟨ys, hys⟩ := List.getLast?_eq_some_iff.1 hlast
  have h1 : l.dropWhile isRustWs = l := by
    rw [hhead]
    exact List.dropWhile_cons_of_neg (by simp [hc])
  unfold trimChars
  rw [h1, hys]
  rw [List.reverse_append, List.reverse_singleton, List.singleton_append,
    List.dropWhile_cons_of_neg (by simp [hd])]
  simp

/-! ## Decimal digit lemmas -/

theorem digitCh_isDigit {d : Nat} (h : d < 10) : (digitCh d).isDigit = true := by
  interval_cases d <;> decide

theorem digitVal_digitCh {d : Nat} (h : d < 10) : digitVal (digitCh d) = d := by
  interval_cases d <;> decide

theorem natDigitsAux_eq {fuel n : Nat} (h : n < fuel) (acc : List Char) :
    natDigitsAux fuel n acc = digitsOf n ++ acc := by
  induction fuel generalizing n acc with
  | zero => omega
  | succ fuel ih =>
    rw [natDigitsAux, digitsOf]
    by_cases h10 : n < 10
    · rw [if_pos h10, dif_pos h10]
      rfl
    · have hdiv : n / 10 < n := Nat.div_lt_self (by omega) (by omega)
      rw [if_neg h10, dif_neg h10, ih (by omega), List.append_assoc]
      rfl

theorem natDigits_eq (n : Nat) : natDigits n = digitsOf n := by
  rw [natDigits, natDigitsAux_eq (Nat.lt_succ_self n), List.append_nil]

theorem digitsOf_ne_nil (n : Nat) : digitsOf n ≠ [] := by
  rw [digitsOf]
  split <;> simp

theorem digitsOf_all_digit (n : Nat) : ∀ c ∈ digitsOf n, c.isDigit = true := by
  induction n using Nat.strong_induction_on with
  | _ n ih =>
    intro c hc
    rw [digitsOf] at hc
    split at hc
    · rename_i h10
      have hc2 := List.mem_singleton.mp hc
      subst hc2
      exact digitCh_isDigit h10
    · rename_i h10
      have hlt : n / 10 < n := Nat.div_lt_self (by omega) (by omega)
      rcases List.mem_append.mp hc with hin | hin
      · exact ih (n / 10) hlt c hin
      · have hc2 := List.mem_singleton.mp hin
        subst hc2
        exact digitCh_isDigit (Nat.mod_lt n (by omega))

theorem digitsToNat_digitsOf (n : Nat) : digitsToNat (digitsOf n) = n := by
  induction n using Nat.strong_induction_on with
  | _ n ih =>
    rw [digitsOf]
    split
    · rename_i h10
      simp [digitsToNat, digitVal_digitCh h10]
    · rename_i h10
      have hdiv : n / 10 < n := Nat.div_lt_self (by omega) (by omega)
      rw [digitsToNat, List.foldl_append]
      have hmod := digitVal_digitCh (Nat.mod_lt n (show 0 < 10 by omega))
      rw [show ∀ a : Nat, List.foldl (fun a c => a * 10 + digitVal c) a [digitCh (n % 10)] =
        a * 10 + digitVal (digitCh (n % 10)) from fun a => rfl]
      rw [hmod, ← digitsToNat, ih (n / 10) hdiv]
      omega

/-! ## `takeWhile`/`dropWhile` over digit runs -/

theorem takeWhile_all_append {p : Char → Bool} {ds rest : List Char}
    (h : ∀ c ∈ ds, p c = true)
    (hrest : ∀ r rs, rest = r :: rs → p r = false) :
    (ds ++ rest).takeWhile p = ds ∧ (ds ++ rest).dropWhile p = rest := by
  induction ds with
  | nil =>
    simp only [List.nil_append]
    cases rest with
    | nil => simp
    | cons r rs =>
      rw [List.takeWhile_cons_of_neg (by simp [hrest r rs rfl]),
        List.dropWhile_cons_of_neg (by simp [hrest r rs rfl])]
      exact ⟨rfl, rfl⟩
  | cons c ds ih =>
    have hc : p c = true := h c (by simp)
    have hih := ih (fun c hc => h c (by simp [hc]))
    rw [List.cons_append, List.takeWhile_cons_of_pos hc,
      List.dropWhile_cons_of_pos hc, hih.1]
    exact ⟨rfl, hih.2⟩

/-! ## String escape round-trip -/

theorem hexVal_hexCh {d : Nat} (h : d < 16) : hexVal (hexCh d) = some d := by
  interval_cases d <;> decide

theorem parseStrBody_u (h1 h2 h3 h4 : Char) (rest : List Char) :
    parseStrBody ('\\' :: 'u' :: h1 :: h2 :: h3 :: h4 :: rest) =
      (match hexVal h1, hexVal h2, hexVal h3, hexVal h4 with
       | some a, some b, some c2, some d =>
         (parseStrBody rest).map
           (fun p => (Char.ofNat (((a * 16 + b) * 16 + c2) * 16 + d) :: p.1, p.2))
       | _, _, _, _ => none) := by
  rw [parseStrBody.eq_def]
  rfl

theorem parseStrBody_escChar (c : Char) (rest : List Char) :
    parseStrBody (escChar c ++ rest) =
      (parseStrBody rest).map (fun p => (c :: p.1, p.2)) := by
  by_cases hq : c = '"'
  · subst hq
    rw [show escChar '"' = ['\\', '"'] from rfl, List.cons_append, List.cons_append,
      List.nil_append, parseStrBody.eq_def]
    rfl
  · by_cases hb : c = '\\'
    · subst hb
      rw [show escChar '\\' = ['\\', '\\'] from rfl, List.cons_append, List.cons_append,
        List.nil_append, parseStrBody.eq_def]
      rfl
    · by_cases hctl : c.toNat < 32
      · by_cases h8 : c.toNat = 8
        · have hc : c = '\x08' := char_toNat_inj (by rw [h8]; decide)
          subst hc
          rw [show escChar '\x08' = ['\\', 'b'] from rfl, List.cons_append, List.cons_append,
            List.nil_append, parseStrBody.eq_def]
          rfl
        · by_cases h9 : c.toNat = 9
          · have hc : c = '\t' := char_toNat_inj (by rw [h9]; decide)
            subst hc
            rw [show escChar '\t' = ['\\', 't'] from rfl, List.cons_append, List.cons_append,
              List.nil_append, parseStrBody.eq_def]
            rfl
          · by_cases h10 : c.toNat = 10
            · have hc : c = '\n' := char_toNat_inj (by rw [h10]; decide)
              subst hc
              rw [show escChar '\n' = ['\\', 'n'] from rfl, List.cons_append, List.cons_append,
                List.nil_append, parseStrBody.eq_def]
              rfl
            · by_cases h12 : c.toNat = 12
              · have hc : c = '\x0c' := char_toNat_inj (by rw [h12]; decide)
                subst hc
                rw [show escChar '\x0c' = ['\\', 'f'] from rfl, List.cons_append,
                  List.cons_append, List.nil_append, parseStrBody.eq_def]
                rfl
              · by_cases h13 : c.toNat = 13
                · have hc : c = '\r' := char_toNat_inj (by rw [h13]; decide)
                  subst hc
                  rw [show escChar '\r' = ['\\', 'r'] from rfl, List.cons_append,
                    List.cons_append, List.nil_append, parseStrBody.eq_def]
                  rfl
                · have hesc : escChar c =
                      ['\\', 'u', '0', '0', hexCh (c.toNat / 16), hexCh (c.toNat % 16)] := by
                    rw [escChar, if_neg hq, if_neg hb, if_pos hctl, if_neg h8,
                      if_neg h9, if_neg h10, if_neg h12, if_neg h13]
                  have hhi : hexVal (hexCh (c.toNat / 16)) = some (c.toNat / 16) :=
                    hexVal_hexCh (by omega)
                  have hlo : hexVal (hexCh (c.toNat % 16)) = some (c.toNat % 16) :=
                    hexVal_hexCh (Nat.mod_lt _ (by omega))
                  rw [hesc, List.cons_append, List.cons_append, List.cons_append,
                    List.cons_append, List.cons_append, List.cons_append, List.nil_append,
                    parseStrBody_u, hhi, hlo,
                    show hexVal '0' = some 0 from rfl]
                  have hval : ((0 * 16 + 0) * 16 + c.toNat / 16) * 16 + c.toNat % 16 =
                      c.toNat := by omega
                  rw [show (match some 0, some 0, some (c.toNat / 16), some (c.toNat % 16) with
                    | some a, some b, some c2, some d =>
                      (parseStrBody rest).map
                        (fun p => (Char.ofNat (((a * 16 + b) * 16 + c2) * 16 + d) :: p.1, p.2))
                    | _, _, _, _ =>
                      none) = (parseStrBody rest).map
                        (fun p => (Char.ofNat (((0 * 16 + 0) * 16 + c.toNat / 16) * 16 +
                          c.toNat % 16) :: p.1, p.2)) from rfl, hval, Char.ofNat_toNat]
      · have hesc : escChar c = [c] := by
          rw [escChar, if_neg hq, if_neg hb, if_neg hctl]
        rw [hesc, List.singleton_append, parseStrBody.eq_def]
        dsimp only
        rw [if_neg hq, if_neg hb]

theorem parseStrBody_escList (l rest : List Char) :
    parseStrBody (escList l ++ '"' :: rest) = some (l, rest) := by
  induction l with
  | nil =>
    rw [escList, List.nil_append, parseStrBody.eq_def]
    rfl
  | cons c l ih =>
    rw [escList, List.append_assoc, parseStrBody_escChar, ih]
    rfl

/-! ## Parser step lemmas -/

theorem string_mk_toList (s : String) : String.mk s.toList = s := rfl

theorem not_isDigit_of_isJsonWs {c : Char} (h : isJsonWs c = true) : c.isDigit = false := by
  rw [isJsonWs_iff] at h
  rw [Bool.eq_false_iff]
  intro hd
  rw [isDigit_iff] at hd
  omega

theorem parseVal_null (f : Nat) (rest : List Char) :
    parseVal (f + 1) ('n' :: 'u' :: 'l' :: 'l' :: rest) = some (.null, rest) := by
  rw [parseVal.eq_def]
  rfl

theorem parseVal_true (f : Nat) (rest : List Char) :
    parseVal (f + 1) ('t' :: 'r' :: 'u' :: 'e' :: rest) = some (.bool true, rest) := by
  rw [parseVal.eq_def]
  rfl

theorem parseVal_false (f : Nat) (rest : List Char) :
    parseVal (f + 1) ('f' :: 'a' :: 'l' :: 's' :: 'e' :: rest) = some (.bool false, rest) := by
  rw [parseVal.eq_def]
  rfl

theorem parseVal_str (f : Nat) (cs : List Char) :
    parseVal (f + 1) ('"' :: cs) =
      (parseStrBody cs).map (fun p => (.str (String.mk p.1), p.2)) := by
  rw [parseVal.eq_def]
  rfl

theorem parseVal_arr (f : Nat) (cs : List Char) :
    parseVal (f + 1) ('[' :: cs) =
      (if (skipWs cs).headD ' ' = ']' then some (.arr [], (skipWs cs).tail)
       else (parseElems f (skipWs cs)).map (fun p => (.arr p.1, p.2))) := by
  rw [parseVal.eq_def]
  rfl

theorem parseVal_obj (f : Nat) (cs : List Char) :
    parseVal (f + 1) ('{' :: cs) =
      (if (skipWs cs).headD ' ' = '}' then some (.obj [], (skipWs cs).tail)
       else (parseMembers f (skipWs cs)).map (fun p => (.obj p.1, p.2))) := by
  rw [parseVal.eq_def]
  rfl

theorem parseVal_neg (f : Nat) (cs : List Char) :
    parseVal (f + 1) ('-' :: cs) =
      (if cs.takeWhile (fun d => d.isDigit) = [] then none
       else some (.num (-(digitsToNat (cs.takeWhile (fun d => d.isDigit)) : Int)),
         cs.dropWhile (fun d => d.isDigit))) := by
  rw [parseVal.eq_def]
  rfl

theorem parseVal_digit (f : Nat) {c : Char} (cs : List Char) (hd : c.isDigit = true) :
    parseVal (f + 1) (c :: cs) =
      some (.num (Int.ofNat (digitsToNat ((c :: cs).takeWhile (fun d => d.isDigit)))),
        (c :: cs).dropWhile (fun d => d.isDigit)) := by
  obtain ⟨n1, n2, n3, n4, n5, n6, n7, -, -, -⟩ := isDigit_ne hd
  rw [parseVal.eq_def]
  dsimp only
  rw [if_neg n1, if_neg n2, if_neg n3, if_neg n4, if_neg n5, if_neg n6, if_neg n7, if_pos hd]

theorem parseElems_eq (f : Nat) (cs : List Char) :
    parseElems (f + 1) cs =
      (match parseVal f (skipWs cs) with
       | none => none
       | some (v, cs1) =>
         match skipWs cs1 with
         | ',' :: cs2 =>
           match parseElems f cs2 with
           | some (vs, cs3) => some (v :: vs, cs3)
           | none => none
         | ']' :: cs2 => some ([v], cs2)
         | _ => none) := by
  rw [parseElems.eq_def]

theorem parseMembers_eq (f : Nat) (cs : List Char) :
    parseMembers (f + 1) cs =
      (match skipWs cs with
       | '"' :: cs1 =>
         match parseStrBody cs1 with
         | none => none
         | some (k, cs2) =>
           match skipWs cs2 with
           | ':' :: cs3 =>
             match parseVal f (skipWs cs3) with
             | none => none
             | some (v, cs4) =>
               match skipWs cs4 with
               | ',' :: cs5 =>
                 match parseMembers f cs5 with
                 | some (kvs, cs6) => some ((String.mk k, v) :: kvs, cs6)
                 | none => none
               | '}' :: cs5 => some ([(String.mk k, v)], cs5)
               | _ => none
           | _ => none
       | _ => none) := by
  rw [parseMembers.eq_def]

theorem parseElems_skipWs (f : Nat) (cs : List Char) :
    parseElems f (skipWs cs) = parseElems f cs := by
  cases f with
  | zero => rw [parseElems.eq_def, parseElems.eq_def]
  | succ f => rw [parseElems_eq, parseElems_eq, skipWs_idem]

theorem parseMembers_skipWs (f : Nat) (cs : List Char) :
    parseMembers f (skipWs cs) = parseMembers f cs := by
  cases f with
  | zero => rw [parseMembers.eq_def, parseMembers.eq_def]
  | succ f => rw [parseMembers_eq, parseMembers_eq, skipWs_idem]

/-! ## Head and last characters of printed values -/

theorem printVal_head (ind : Nat) (v : Json) :
    ∃ c t, printVal ind v = c :: t ∧ isJsonWs c = false ∧ isRustWs c = false ∧
      c ≠ ']' ∧ c ≠ '}' := by
  cases v with
  | null => exact ⟨'n', _, rfl, by decide, by decide, by decide, by decide⟩
  | bool b =>
    cases b with
    | true => exact ⟨'t', _, rfl, by decide, by decide, by decide, by decide⟩
    | false => exact ⟨'f', _, rfl, by decide, by decide, by decide, by decide⟩
  | num n =>
    cases n with
    | ofNat m =>
      have heq : printVal ind (.num (.ofNat m)) = digitsOf m := by
        rw [printVal, intChars, natDigits_eq]
      rcases hdig : digitsOf m with _ | ⟨d, ds⟩
      · exact absurd hdig (digitsOf_ne_nil m)
      · have hd : d.isDigit = true := digitsOf_all_digit m d (by rw [hdig]; simp)
        obtain ⟨-, -, -, -, -, -, -, h8, h9, -⟩ := isDigit_ne hd
        exact ⟨d, ds, by rw [heq, hdig], not_isJsonWs_of_isDigit hd,
          not_isRustWs_of_isDigit hd, h8, h9⟩
    | negSucc m =>
      exact ⟨'-', natDigits (m + 1), by rw [printVal, intChars], by decide, by decide,
        by decide, by decide⟩
  | str s => exact ⟨'"', _, rfl, by decide, by decide, by decide, by decide⟩
  | arr xs =>
    cases xs with
    | nil => exact ⟨'[', _, rfl, by decide, by decide, by decide, by decide⟩
    | cons x xs =>
      exact ⟨'[', printItems (ind + 2) (x :: xs) ++ '\n' :: spaces ind ++ [']'],
        by rw [printVal], by decide, by decide, by decide, by decide⟩
  | obj es =>
    cases es with
    | nil => exact ⟨'{', _, rfl, by decide, by decide, by decide, by decide⟩
    | cons e es =>
      exact ⟨'{', printMembers (ind + 2) (e :: es) ++ '\n' :: spaces ind ++ ['}'],
        by rw [printVal], by decide, by decide, by decide, by decide⟩

theorem skipWs_printVal (ind : Nat) (v : Json) (rest : List Char) :
    skipWs (printVal ind v ++ rest) = printVal ind v ++ rest := by
  obtain ⟨c, t, hpv, hws, -, -, -⟩ := printVal_head ind v
  rw [hpv, List.cons_append, skipWs_cons_of_not_ws hws]

theorem printVal_last (ind : Nat) (v : Json) :
    ∃ d, (printVal ind v).getLast? = some d ∧ isRustWs d = false := by
  cases v with
  | null => exact ⟨'l', by rw [printVal]; rfl, by decide⟩
  | bool b => cases b with
    | true => exact ⟨'e', by rw [printVal]; rfl, by decide⟩
    | false => exact ⟨'e', by rw [printVal]; rfl, by decide⟩
  | num n =>
    have hlast : ∀ m : Nat, ∃ d, (digitsOf m).getLast? = some d ∧ isRustWs d = false := by
      intro m
      have hne := digitsOf_ne_nil m
      rcases hl : (digitsOf m).getLast? with _ | d
      · rw [List.getLast?_eq_none_iff] at hl
        exact absurd hl hne
      · have hmem : d ∈ digitsOf m := List.mem_of_getLast?_eq_some hl
        exact ⟨d, rfl, not_isRustWs_of_isDigit (digitsOf_all_digit m d hmem)⟩
    cases n with
    | ofNat m =>
      obtain ⟨d, hl, hr⟩ := hlast m
      refine ⟨d, ?_, hr⟩
      rw [printVal, intChars, natDigits_eq]
      exact hl
    | negSucc m =>
      obtain ⟨d, hl, hr⟩ := hlast (m + 1)
      obtain ⟨ys, hys⟩ := List.getLast?_eq_some_iff.1 hl
      refine ⟨d, ?_, hr⟩
      rw [printVal, intChars, natDigits_eq, hys,
        show '-' :: (ys ++ [d]) = ('-' :: ys) ++ [d] from rfl, List.getLast?_concat]
  | str s =>
    refine ⟨'"', ?_, by decide⟩
    rw [printVal, show '"' :: (escList s.toList ++ ['"']) = ('"' :: escList s.toList) ++ ['"']
      from rfl, List.getLast?_concat]
  | arr xs =>
    cases xs with
    | nil => exact ⟨']', by rw [printVal]; rfl, by decide⟩
    | cons x xs =>
      refine ⟨']', ?_, by decide⟩
      rw [printVal, show '[' :: (printItems (ind + 2) (x :: xs) ++ '\n' :: spaces ind ++ [']']) =
        ('[' :: (printItems (ind + 2) (x :: xs) ++ '\n' :: spaces ind)) ++ [']'] by
          simp, List.getLast?_concat]
  | obj es =>
    cases es with
    | nil => exact ⟨'}', by rw [printVal]; rfl, by decide⟩
    | cons e es =>
      refine ⟨'}', ?_, by decide⟩
      rw [printVal, show '{' :: (printMembers (ind + 2) (e :: es) ++ '\n' :: spaces ind ++ ['}']) =
        ('{' :: (printMembers (ind + 2) (e :: es) ++ '\n' :: spaces ind)) ++ ['}'] by
          simp, List.getLast?_concat]

theorem trimChars_printVal (v : Json) : trimChars (printVal 0 v) = printVal 0 v := by
  obtain ⟨c, t, hpv, -, hcr, -, -⟩ := printVal_head 0 v
  obtain ⟨d, hlast, hdr⟩ := printVal_last 0 v
  exact trimChars_eq_self hcr hdr hpv hlast

/-! ## Fuel bounds for the parser -/

theorem one_le_needVal (v : Json) : 1 ≤ needVal v := by
  cases v <;> rw [needVal] <;> omega

mutual

theorem needVal_le_length (ind : Nat) (v : Json) :
    needVal v ≤ (printVal ind v).length := by
  cases v with
  | null => rw [needVal, printVal]; simp
  | bool b => cases b <;> (rw [needVal, printVal]; simp)
  | num n =>
    obtain ⟨c, t, hpv, -, -, -, -⟩ := printVal_head ind (.num n)
    rw [needVal, hpv]
    simp
  | str s => rw [needVal, printVal]; simp
  | arr xs =>
    cases xs with
    | nil => rw [needVal, needElems, printVal]; simp
    | cons x xs =>
      rw [needVal, printVal]
      have h := needElems_le_length (ind + 2) (x :: xs)
      simp only [List.length_cons, List.length_append]
      omega
  | obj es =>
    cases es with
    | nil => rw [needVal, needMembers, printVal]; simp
    | cons e es =>
      rw [needVal, printVal]
      have h := needMembers_le_length (ind + 2) (e :: es)
      simp only [List.length_cons, List.length_append]
      omega

theorem needElems_le_length (ind : Nat) (xs : List Json) :
    needElems xs ≤ (printItems ind xs).length := by
  cases xs with
  | nil => rw [needElems, printItems]; simp
  | cons x xs =>
    cases xs with
    | nil =>
      rw [needElems, needElems, printItems]
      have h := needVal_le_length ind x
      simp only [List.length_cons, List.length_append]
      omega
    | cons y ys =>
      rw [needElems, printItems]
      have h1 := needVal_le_length ind x
      have h2 := needElems_le_length ind (y :: ys)
      simp only [List.length_cons, List.length_append]
      omega

theorem needMembers_le_length (ind : Nat) (es : List (String × Json)) :
    needMembers es ≤ (printMembers ind es).length := by
  cases es with
  | nil => rw [needMembers, printMembers]; simp
  | cons e es =>
    obtain ⟨k, v⟩ := e
    cases es with
    | nil =>
      rw [needMembers, needMembers, printMembers]
      have h := needVal_le_length ind v
      simp only [List.length_cons, List.length_append]
      omega
    | cons e2 es2 =>
      rw [needMembers, printMembers]
      have h1 := needVal_le_length ind v
      have h2 := needMembers_le_length ind (e2 :: es2)
      simp only [List.length_cons, List.length_append]
      omega

end

/-! ## Helpers for the round-trip proof -/

theorem spaces_allWs (ind : Nat) : ∀ c ∈ spaces ind, isJsonWs c = true := by
  intro c hc
  rw [List.eq_of_mem_replicate hc]
  decide

theorem delimOk_nil : delimOk [] := trivial

theorem delimOk_cons {c : Char} (h : c.isDigit = false) (rest : List Char) :
    delimOk (c :: rest) := h

theorem delimOk_append_ws {ws : List Char} (h : ∀ c ∈ ws, isJsonWs c = true)
    {d : Char} (hd : d.isDigit = false) (rest : List Char) :
    delimOk (ws ++ d :: rest) := by
  cases ws with
  | nil => exact hd
  | cons w ws2 =>
    exact delimOk_cons (not_isDigit_of_isJsonWs (h w (by simp))) _

theorem digits_take_drop {m : Nat} {rest : List Char} (hrest : delimOk rest) :
    (digitsOf m ++ rest).takeWhile (fun d => d.isDigit) = digitsOf m ∧
      (digitsOf m ++ rest).dropWhile (fun d => d.isDigit) = rest := by
  apply takeWhile_all_append (digitsOf_all_digit m)
  intro r rs hr
  rw [hr] at hrest
  exact hrest

theorem skipWs_printItems (ind : Nat) (x : Json) (xs : List Json) (tail : List Char) :
    ∃ u, skipWs (printItems ind (x :: xs) ++ tail) = printVal ind x ++ u := by
  cases xs with
  | nil =>
    refine ⟨tail, ?_⟩
    rw [printItems]
    simp only [List.cons_append, List.append_assoc]
    rw [skipWs_cons_of_ws (by decide), skipWs_append_ws (spaces_allWs ind), skipWs_printVal]
  | cons y ys =>
    refine ⟨',' :: printItems ind (y :: ys) ++ tail, ?_⟩
    rw [printItems]
    simp only [List.cons_append, List.append_assoc]
    rw [skipWs_cons_of_ws (by decide), skipWs_append_ws (spaces_allWs ind), skipWs_printVal]

theorem skipWs_printMembers (ind : Nat) (kv : String × Json)
    (es : List (String × Json)) (tail : List Char) :
    ∃ u, skipWs (printMembers ind (kv :: es) ++ tail) = '"' :: u := by
  obtain ⟨k, v⟩ := kv
  cases es with
  | nil =>
    refine ⟨escList k.toList ++ '"' :: ':' :: ' ' :: printVal ind v ++ tail, ?_⟩
    rw [printMembers]
    simp only [List.cons_append, List.append_assoc]
    rw [skipWs_cons_of_ws (by decide), skipWs_append_ws (spaces_allWs ind),
      skipWs_cons_of_not_ws (by decide)]
  | cons e2 es2 =>
    refine ⟨escList k.toList ++ '"' :: ':' :: ' ' ::
      (printVal ind v ++ ',' :: printMembers ind (e2 :: es2)) ++ tail, ?_⟩
    rw [printMembers]
    simp only [List.cons_append, List.append_assoc]
    rw [skipWs_cons_of_ws (by decide), skipWs_append_ws (spaces_allWs ind),
      skipWs_cons_of_not_ws (by decide)]

/-! ## The printer/parser round trip -/

theorem val_case (f : Nat)
    (ihE : ∀ x xs ind ws rest, needElems (x :: xs) ≤ f → (∀ c ∈ ws, isJsonWs c = true) →
      parseElems f (printItems ind (x :: xs) ++ (ws ++ (']' :: rest))) = some (x :: xs, rest))
    (ihM : ∀ kv es ind ws rest, needMembers (kv :: es) ≤ f → (∀ c ∈ ws, isJsonWs c = true) →
      parseMembers f (printMembers ind (kv :: es) ++ (ws ++ ('}' :: rest))) = some (kv :: es, rest)) :
    ∀ v ind rest, needVal v ≤ f + 1 → delimOk rest →
      parseVal (f + 1) (printVal ind v ++ rest) = some (v, rest) := by
  intro v ind rest hne hdel
  cases v with
  | null =>
    rw [printVal]
    simp only [List.cons_append, List.nil_append]
    exact parseVal_null f rest
  | bool b =>
    cases b with
    | true =>
      rw [printVal]
      simp only [List.cons_append, List.nil_append]
      exact parseVal_true f rest
    | false =>
      rw [printVal]
      simp only [List.cons_append, List.nil_append]
      exact parseVal_false f rest
  | num n =>
    cases n with
    | ofNat m =>
      have hpr : printVal ind (Json.num (Int.ofNat m)) = digitsOf m := by
        rw [printVal, intChars, natDigits_eq]
      rw [hpr]
      obtain ⟨htake, hdrop⟩ := digits_take_drop (m := m) hdel
      rcases hdig : digitsOf m with _ | ⟨d, ds⟩
      · exact absurd hdig (digitsOf_ne_nil m)
      · have hd : d.isDigit = true := digitsOf_all_digit m d (by rw [hdig]; simp)
        rw [hdig] at htake hdrop
        simp only [List.cons_append] at htake hdrop
        rw [List.cons_append, parseVal_digit f _ hd, htake, hdrop, ← hdig,
          digitsToNat_digitsOf]
    | negSucc m =>
      have hpr : printVal ind (Json.num (Int.negSucc m)) = '-' :: digitsOf (m + 1) := by
        rw [printVal, intChars, natDigits_eq]
      rw [hpr, List.cons_append, parseVal_neg]
      obtain ⟨htake, hdrop⟩ := digits_take_drop (m := m + 1) hdel
      rw [htake, hdrop, if_neg (digitsOf_ne_nil (m + 1)), digitsToNat_digitsOf]
      have hneg : (-((m + 1 : Nat) : Int)) = Int.negSucc m := by
        rw [Int.negSucc_eq]
        push_cast
        ring
      rw [hneg]
  | str s =>
    rw [printVal]
    simp only [List.cons_append, List.append_assoc, List.singleton_append]
    rw [parseVal_str, parseStrBody_escList]
    simp [string_mk_toList]
  | arr xs =>
    cases xs with
    | nil =>
      rw [printVal]
      simp only [List.cons_append, List.nil_append]
      rw [parseVal_arr, skipWs_cons_of_not_ws (by decide)]
      norm_num
    | cons x xs =>
      rw [printVal]
      simp only [List.cons_append, List.append_assoc, List.singleton_append,
        List.nil_append]
      rw [parseVal_arr, parseElems_skipWs]
      have hE := ihE x xs (ind + 2) ('\n' :: spaces ind) rest
        (by rw [needVal] at hne; omega) (allWs_spaces ind)
      simp only [List.cons_append] at hE
      obtain ⟨u, hskip⟩ := skipWs_printItems (ind + 2) x xs
        ('\n' :: (spaces ind ++ ']' :: rest))
      obtain ⟨c, t, hpv, -, -, hc1, -⟩ := printVal_head (ind + 2) x
      rw [hskip, hpv, List.cons_append,
        if_neg (by simp only [List.headD_cons]; exact hc1), hE]
      rfl
  | obj es =>
    cases es with
    | nil =>
      rw [printVal]
      simp only [List.cons_append, List.nil_append]
      rw [parseVal_obj, skipWs_cons_of_not_ws (by decide)]
      norm_num
    | cons kv es =>
      rw [printVal]
      simp only [List.cons_append, List.append_assoc, List.singleton_append,
        List.nil_append]
      rw [parseVal_obj, parseMembers_skipWs]
      have hM := ihM kv es (ind + 2) ('\n' :: spaces ind) rest
        (by rw [needVal] at hne; omega) (allWs_spaces ind)
      simp only [List.cons_append] at hM
      obtain ⟨u, hskip⟩ := skipWs_printMembers (ind + 2) kv es
        ('\n' :: (spaces ind ++ '}' :: rest))
      rw [hskip, if_neg (by simp only [List.headD_cons]; decide), hM]
      rfl

theorem elems_case (f : Nat)
    (ihV : ∀ v ind rest, needVal v ≤ f → delimOk rest →
      parseVal f (printVal ind v ++ rest) = some (v, rest))
    (ihE : ∀ x xs ind ws rest, needElems (x :: xs) ≤ f → (∀ c ∈ ws, isJsonWs c = true) →
      parseElems f (printItems ind (x :: xs) ++ (ws ++ (']' :: rest))) = some (x :: xs, rest)) :
    ∀ x xs ind ws rest, needElems (x :: xs) ≤ f + 1 → (∀ c ∈ ws, isJsonWs c = true) →
      parseElems (f + 1) (printItems ind (x :: xs) ++ (ws ++ (']' :: rest))) =
        some (x :: xs, rest) := by
  intro x xs ind ws rest hne hws
  rw [parseElems_eq]
  cases xs with
  | nil =>
    rw [printItems]
    simp only [List.cons_append, List.append_assoc]
    rw [skipWs_cons_of_ws (by decide), skipWs_append_ws (spaces_allWs ind), skipWs_printVal]
    rw [ihV x ind (ws ++ ']' :: rest) (by rw [needElems, needElems] at hne; omega)
      (delimOk_append_ws hws (by decide) rest)]
    dsimp only
    rw [skipWs_append_ws hws, skipWs_cons_of_not_ws (by decide)]
    split <;> simp_all
  | cons y ys =>
    rw [printItems]
    simp only [List.cons_append, List.append_assoc]
    rw [skipWs_cons_of_ws (by decide), skipWs_append_ws (spaces_allWs ind), skipWs_printVal]
    rw [ihV x ind (',' :: (printItems ind (y :: ys) ++ (ws ++ ']' :: rest)))
      (by rw [needElems] at hne; omega) (delimOk_cons (by decide) _)]
    dsimp only
    rw [skipWs_cons_of_not_ws (by decide)]
    have hrec := ihE y ys ind ws rest (by rw [needElems] at hne; omega) hws
    split
    · rename_i cs2 harm
      rw [List.cons.injEq] at harm
      rw [← harm.2, hrec]
    · rename_i cs2 harm
      rw [List.cons.injEq] at harm
      exact absurd harm.1 (by decide)
    · rename_i hno1 hno2
      exact absurd rfl (hno1 _)

theorem members_case (f : Nat)
    (ihV : ∀ v ind rest, needVal v ≤ f → delimOk rest →
      parseVal f (printVal ind v ++ rest) = some (v, rest))
    (ihM : ∀ kv es ind ws rest, needMembers (kv :: es) ≤ f → (∀ c ∈ ws, isJsonWs c = true) →
      parseMembers f (printMembers ind (kv :: es) ++ (ws ++ ('}' :: rest))) = some (kv :: es, rest)) :
    ∀ kv es ind ws rest, needMembers (kv :: es) ≤ f + 1 → (∀ c ∈ ws, isJsonWs c = true) →
      parseMembers (f + 1) (printMembers ind (kv :: es) ++ (ws ++ ('}' :: rest))) =
        some (kv :: es, rest) := by
  intro kv es ind ws rest hne hws
  obtain ⟨k, v⟩ := kv
  rw [parseMembers_eq]
  cases es with
  | nil =>
    rw [printMembers]
    simp only [List.cons_append, List.append_assoc]
    rw [skipWs_cons_of_ws (by decide), skipWs_append_ws (spaces_allWs ind),
      skipWs_cons_of_not_ws (by decide)]
    split
    · rename_i cs1 harm
      rw [List.cons.injEq] at harm
      rw [← harm.2, parseStrBody_escList]
      dsimp only
      rw [skipWs_cons_of_not_ws (by decide)]
      split
      · rename_i cs3 harm2
        rw [List.cons.injEq] at harm2
        rw [← harm2.2, skipWs_cons_of_ws (by decide), skipWs_printVal]
        rw [ihV v ind (ws ++ '}' :: rest) (by rw [needMembers, needMembers] at hne; omega)
          (delimOk_append_ws hws (by decide) rest)]
        dsimp only
        rw [skipWs_append_ws hws, skipWs_cons_of_not_ws (by decide)]
        split <;> simp_all [string_mk_toList]
      · rename_i hno
        exact absurd rfl (hno _)
    · rename_i hno
      exact absurd rfl (hno _)
  | cons e2 es2 =>
    rw [printMembers]
    simp only [List.cons_append, List.append_assoc]
    rw [skipWs_cons_of_ws (by decide), skipWs_append_ws (spaces_allWs ind),
      skipWs_cons_of_not_ws (by decide)]
    split
    · rename_i cs1 harm
      rw [List.cons.injEq] at harm
      rw [← harm.2, parseStrBody_escList]
      dsimp only
      rw [skipWs_cons_of_not_ws (by decide)]
      split
      · rename_i cs3 harm2
        rw [List.cons.injEq] at harm2
        rw [← harm2.2, skipWs_cons_of_ws (by decide), skipWs_printVal]
        rw [ihV v ind (',' :: (printMembers ind (e2 :: es2) ++ (ws ++ '}' :: rest)))
          (by rw [needMembers] at hne; omega) (delimOk_cons (by decide) _)]
        dsimp only
        rw [skipWs_cons_of_not_ws (by decide)]
        have hrec := ihM e2 es2 ind ws rest (by rw [needMembers] at hne; omega) hws
        split
        · rename_i cs5 harm3
          rw [List.cons.injEq] at harm3
          rw [← harm3.2, hrec]
          simp [string_mk_toList]
        · rename_i cs5 harm3
          rw [List.cons.injEq] at harm3
          exact absurd harm3.1 (by decide)
        · rename_i hno1 hno2
          exact absurd rfl (hno1 _)
      · rename_i hno
        exact absurd rfl (hno _)
    · rename_i hno
      exact absurd rfl (hno _)

theorem parse_print_aux (f : Nat) :
    (∀ v ind rest, needVal v ≤ f → delimOk rest →
      parseVal f (printVal ind v ++ rest) = some (v, rest)) ∧
    (∀ x xs ind ws rest, needElems (x :: xs) ≤ f → (∀ c ∈ ws, isJsonWs c = true) →
      parseElems f (printItems ind (x :: xs) ++ (ws ++ (']' :: rest))) = some (x :: xs, rest)) ∧
    (∀ kv es ind ws rest, needMembers (kv :: es) ≤ f → (∀ c ∈ ws, isJsonWs c = true) →
      parseMembers f (printMembers ind (kv :: es) ++ (ws ++ ('}' :: rest))) =
        some (kv :: es, rest)) := by
  induction f with
  | zero =>
    refine ⟨?_, ?_, ?_⟩
    · intro v ind rest hne _
      have := one_le_needVal v
      omega
    · intro x xs ind ws rest hne _
      rw [needElems] at hne
      omega
    · intro kv es ind ws rest hne _
      obtain ⟨k, v⟩ := kv
      rw [needMembers] at hne
      omega
  | succ f ih =>
    exact ⟨val_case f ih.2.1 ih.2.2, elems_case f ih.1 ih.2.1, members_case f ih.1 ih.2.2⟩

theorem parse_printVal {f : Nat} {v : Json} (ind : Nat) (rest : List Char)
    (hf : needVal v ≤ f) (hrest : delimOk rest) :
    parseVal f (printVal ind v ++ rest) = some (v, rest) :=
  (parse_print_aux f).1 v ind rest hf hrest

/-- Round trip: parsing the pretty-printed form of any value gives back
exactly that value. -/
theorem parseJson_printVal (v : Json) : parseJson (printVal 0 v) = some v := by
  unfold parseJson
  have hskip : skipWs (printVal 0 v) = printVal 0 v := by
    have h := skipWs_printVal 0 v []
    simpa using h
  simp only [hskip]
  have hparse : parseVal ((printVal 0 v).length + 1) (printVal 0 v ++ []) = some (v, []) :=
    parse_printVal 0 []
      (Nat.le_trans (needVal_le_length 0 v) (Nat.le_succ _)) delimOk_nil
  rw [List.append_nil] at hparse
  rw [hparse]
  rfl

/-! ## Filesystem-level lemmas -/

theorem read_auth_printVal (v : Json) {s : FsState}
    (hf : s.authFile = some (printVal 0 v)) {o : FsOracle} (hro : o.readOk = true) :
    read_auth o s = (.ok v, [.existsCheck, .readFile]) := by
  unfold read_auth
  rw [hf]
  dsimp only
  rw [if_pos hro, trimChars_printVal]
  obtain ⟨c, t, hpv, -, -, -, -⟩ := printVal_head 0 v
  rw [if_neg (by rw [hpv]; exact List.cons_ne_nil c t), parseJson_printVal]

theorem write_auth_allOk (s : FsState) (v : Json) :
    (write_auth allOk s v).1 = .ok () ∧
      (write_auth allOk s v).2.1.authFile = some (printVal 0 v) := by
  rcases s with ⟨af, bf⟩
  cases af <;> simp [write_auth, allOk]

theorem write_auth_authFile (o : FsOracle) (s : FsState) (v : Json) :
    (write_auth o s v).2.1.authFile = s.authFile ∨
      (write_auth o s v).2.1.authFile = some (printVal 0 v) := by
  rcases s with ⟨af, bf⟩
  by_cases h1 : o.createDirOk = true
  · cases af with
    | none =>
      by_cases h3 : o.writeOk = true
      · right
        simp [write_auth, h1, h3]
      · left
        simp [write_auth, h1, h3]
    | some content =>
      by_cases h2 : o.copyOk = true
      · by_cases h3 : o.writeOk = true
        · right
          simp [write_auth, h1, h2, h3]
        · left
          simp [write_auth, h1, h2, h3]
      · left
        simp [write_auth, h1, h2]
  · left
    simp [write_auth, h1]

theorem read_auth_ops (o : FsOracle) (s : FsState) :
    (read_auth o s).2 = [.existsCheck] ∨ (read_auth o s).2 = [.existsCheck, .readFile] := by
  rcases s with ⟨af, bf⟩
  cases af with
  | none => left; rfl
  | some content =>
    right
    simp only [read_auth]
    by_cases hro : o.readOk = true
    · rw [if_pos hro]
      by_cases he : trimChars content = []
      · rw [if_pos he]
      · rw [if_neg he]
        cases parseJson (trimChars content) <;> rfl
    · rw [if_neg hro]

theorem containsKey_removeKey {l : List (String × Json)} {k : String}
    (hnd : (l.map Prod.fst).Nodup) : containsKey (removeKey l k) k = false := by
  induction l with
  | nil => rfl
  | cons p rest ih =>
    obtain ⟨k0, v0⟩ := p
    rw [List.map_cons, List.nodup_cons] at hnd
    rw [removeKey]
    by_cases hk : k0 = k
    · rw [if_pos (by exact beq_iff_eq.2 hk)]
      rw [Bool.eq_false_iff]
      intro hcon
      rw [containsKey, List.any_eq_true] at hcon
      obtain ⟨q, hq, hqk⟩ := hcon
      rw [beq_iff_eq] at hqk
      exact hnd.1 (by rw [hk, ← hqk]; exact List.mem_map.mpr ⟨q, hq, rfl⟩)
    · rw [if_neg (by simp [hk]), containsKey, List.any_cons]
      have := ih hnd.2
      rw [containsKey] at this
      simp only [this, Bool.or_false]
      simp [hk]

/-! ## The claims -/

/-- C1: for every store whose top-level JSON value is an object containing
key `k`, `remove_provider_auth k` removes `k`, performs a full write of the
resulting object, and returns `true`; a subsequent `read_auth` returns
exactly the original object with `k` removed (all other entries
unchanged). -/
theorem C1_remove_present_key (s : FsState) (l : List (String × Json)) (k : String)
    (hk : k ≠ "") (hread : (read_auth allOk s).1 = .ok (Json.obj l))
    (hmem : containsKey l k = true) (hnd : (l.map Prod.fst).Nodup) :
    (remove_provider_auth allOk s k).1 = .ok true ∧
      (read_auth allOk (remove_provider_auth allOk s k).2.1).1 =
        .ok (Json.obj (removeKey l k)) ∧
      containsKey (removeKey l k) k = false := by
  have hpair : read_auth allOk s = (.ok (Json.obj l), (read_auth allOk s).2) := by
    rw [← hread]
  rcases hwr : write_auth allOk s (Json.obj (removeKey l k)) with ⟨wr, s2, wops⟩
  obtain ⟨hw1, hw2⟩ := write_auth_allOk s (Json.obj (removeKey l k))
  rw [hwr] at hw1 hw2
  dsimp only at hw1 hw2
  subst hw1
  have hrem : remove_provider_auth allOk s k =
      (.ok true, s2, (read_auth allOk s).2 ++ wops) := by
    unfold remove_provider_auth
    rw [if_neg hk, hpair]
    dsimp only
    rw [if_pos hmem, hwr]
  refine ⟨by rw [hrem], ?_, containsKey_removeKey hnd⟩
  rw [hrem]
  dsimp only
  rw [read_auth_printVal (Json.obj (removeKey l k)) hw2 rfl]

theorem C1_remove_present_key_witness :
    ("x" : String) ≠ "" ∧
    (read_auth allOk ⟨some (printVal 0 (Json.obj [("x", Json.null), ("y", Json.bool true)])),
      none⟩).1 = .ok (Json.obj [("x", Json.null), ("y", Json.bool true)]) ∧
    containsKey [("x", Json.null), ("y", Json.bool true)] "x" = true ∧
    (([("x", Json.null), ("y", Json.bool true)] : List (String × Json)).map Prod.fst).Nodup ∧
    ((remove_provider_auth allOk
        ⟨some (printVal 0 (Json.obj [("x", Json.null), ("y", Json.bool true)])), none⟩ "x").1 =
          .ok true ∧
      (read_auth allOk (remove_provider_auth allOk
        ⟨some (printVal 0 (Json.obj [("x", Json.null), ("y", Json.bool true)])), none⟩
          "x").2.1).1 =
        .ok (Json.obj (removeKey [("x", Json.null), ("y", Json.bool true)] "x")) ∧
      containsKey (removeKey [("x", Json.null), ("y", Json.bool true)] "x") "x" = false) :=
  ⟨by decide,
    by rw [read_auth_printVal (Json.obj [("x", Json.null), ("y", Json.bool true)]) rfl rfl],
    by decide, by decide,
    C1_remove_present_key _ _ "x" (by decide)
      (by rw [read_auth_printVal (Json.obj [("x", Json.null), ("y", Json.bool true)]) rfl rfl])
      (by decide) (by decide)⟩

/-- C2: for every prior auth-file state, if during `write_auth` the backup
copy of the existing auth file fails, `write_auth` returns an `IOError` and
the original auth file's contents are left unchanged — the final write is
never attempted. -/
theorem C2_backup_failure_aborts (o : FsOracle) (s : FsState) (auth : Json) (c : List Char)
    (hf : s.authFile = some c) (hdir : o.createDirOk = true) (hcopy : o.copyOk = false) :
    write_auth o s auth = (.error .ioError, s, [.createDir, .existsCheck, .copyFile]) ∧
      FsOp.writeFile ∉ (write_auth o s auth).2.2 := by
  have h : write_auth o s auth = (.error .ioError, s, [.createDir, .existsCheck, .copyFile]) := by
    unfold write_auth
    rw [if_pos hdir, hf]
    dsimp only
    rw [if_neg (by simp [hcopy])]
  exact ⟨h, by rw [h]; dsimp only; decide⟩

theorem C2_backup_failure_aborts_witness :
    (⟨some ['a'], some ['b']⟩ : FsState).authFile = some ['a'] ∧
    (⟨true, true, false, true⟩ : FsOracle).createDirOk = true ∧
    (⟨true, true, false, true⟩ : FsOracle).copyOk = false ∧
    (write_auth ⟨true, true, false, true⟩ ⟨some ['a'], some ['b']⟩ Json.null =
        (.error .ioError, ⟨some ['a'], some ['b']⟩,
          [.createDir, .existsCheck, .copyFile]) ∧
      FsOp.writeFile ∉
        (write_auth ⟨true, true, false, true⟩ ⟨some ['a'], some ['b']⟩ Json.null).2.2) :=
  ⟨rfl, rfl, rfl,
    C2_backup_failure_aborts ⟨true, true, false, true⟩ ⟨some ['a'], some ['b']⟩
      Json.null ['a'] rfl rfl rfl⟩

/-- C3: `read_auth` returns an empty JSON object (not an error) whenever the
auth file does not exist, or exists but its contents are empty or consist
only of whitespace (and the read itself succeeds). -/
theorem C3_read_missing_or_whitespace (o : FsOracle) (s : FsState)
    (h : s.authFile = none ∨
      ∃ cs, s.authFile = some cs ∧ (∀ c ∈ cs, isRustWs c = true) ∧ o.readOk = true) :
    (read_auth o s).1 = .ok (Json.obj []) := by
  rcases h with h | ⟨cs, hf, hws, hro⟩
  · unfold read_auth
    rw [h]
  · unfold read_auth
    rw [hf]
    dsimp only
    rw [if_pos hro, if_pos (trimChars_of_allWs hws)]

theorem C3_read_missing_or_whitespace_witness :
    (∀ c ∈ [' ', '\n'], isRustWs c = true) ∧
    (read_auth allOk ⟨some [' ', '\n'], none⟩).1 = .ok (Json.obj []) ∧
    (read_auth allOk ⟨none, none⟩).1 = .ok (Json.obj []) :=
  ⟨by decide,
    C3_read_missing_or_whitespace allOk ⟨some [' ', '\n'], none⟩
      (Or.inr ⟨[' ', '\n'], rfl, by decide, rfl⟩),
    C3_read_missing_or_whitespace allOk ⟨none, none⟩ (Or.inl rfl)⟩

/-- C4: for every non-empty provider identifier, if the store read from disk
has a top-level JSON value that is not an object (e.g. an array),
`remove_provider_auth` fails with a `SchemaError` and performs no write (and
no backup copy). -/
theorem C4_remove_non_object (o : FsOracle) (s : FsState) (k : String) (v : Json)
    (hk : k ≠ "") (hread : (read_auth o s).1 = .ok v) (hobj : v.isObject = false) :
    remove_provider_auth o s k = (.error .schemaError, s, (read_auth o s).2) ∧
      FsOp.writeFile ∉ (remove_provider_auth o s k).2.2 ∧
      FsOp.copyFile ∉ (remove_provider_auth o s k).2.2 := by
  have hpair : read_auth o s = (.ok v, (read_auth o s).2) := by rw [← hread]
  have h : remove_provider_auth o s k = (.error .schemaError, s, (read_auth o s).2) := by
    unfold remove_provider_auth
    rw [if_neg hk, hpair]
    dsimp only
    cases v with
    | obj l => simp [Json.isObject] at hobj
    | null => rfl
    | bool b => rfl
    | num n => rfl
    | str s2 => rfl
    | arr xs => rfl
  refine ⟨h, ?_, ?_⟩ <;> rw [h] <;>
    rcases read_auth_ops o s with ho | ho <;>
    rw [show (((.error .schemaError : Except AuthError Bool), s,
      (read_auth o s).2)).2.2 = (read_auth o s).2 from rfl, ho] <;> decide

theorem C4_remove_non_object_witness :
    ("x" : String) ≠ "" ∧
    (read_auth allOk ⟨some ['[', ']'], none⟩).1 = .ok (Json.arr []) ∧
    (Json.arr []).isObject = false ∧
    (remove_provider_auth allOk ⟨some ['[', ']'], none⟩ "x" =
        (.error .schemaError, ⟨some ['[', ']'], none⟩,
          (read_auth allOk ⟨some ['[', ']'], none⟩).2) ∧
      FsOp.writeFile ∉ (remove_provider_auth allOk ⟨some ['[', ']'], none⟩ "x").2.2 ∧
      FsOp.copyFile ∉ (remove_provider_auth allOk ⟨some ['[', ']'], none⟩ "x").2.2) :=
  ⟨by decide, rfl, rfl,
    C4_remove_non_object allOk ⟨some ['[', ']'], none⟩ "x" (Json.arr [])
      (by decide) rfl rfl⟩

/-- C5: `remove_provider_auth` called with the empty string fails with a
`ValidationError` and performs no filesystem operation at all — the state is
unchanged and the operation trace is empty. -/
theorem C5_remove_empty_id (o : FsOracle) (s : FsState) :
    remove_provider_auth o s "" = (.error .validationError, s, []) := by
  unfold remove_provider_auth
  rw [if_pos rfl]

/-- C6: for every non-empty provider identifier `k` absent from the store
object, `remove_provider_auth k` returns `false` and performs no write: the
auth file and the backup file are both left exactly as they were, and no
copy or write operation happens. -/
theorem C6_remove_absent_key (o : FsOracle) (s : FsState) (l : List (String × Json))
    (k : String) (hk : k ≠ "") (hread : (read_auth o s).1 = .ok (Json.obj l))
    (hmem : containsKey l k = false) :
    remove_provider_auth o s k = (.ok false, s, (read_auth o s).2) ∧
      FsOp.writeFile ∉ (remove_provider_auth o s k).2.2 ∧
      FsOp.copyFile ∉ (remove_provider_auth o s k).2.2 := by
  have hpair : read_auth o s = (.ok (Json.obj l), (read_auth o s).2) := by rw [← hread]
  have h : remove_provider_auth o s k = (.ok false, s, (read_auth o s).2) := by
    unfold remove_provider_auth
    rw [if_neg hk, hpair]
    dsimp only
    rw [if_neg (by simp [hmem])]
  refine ⟨h, ?_, ?_⟩ <;> rw [h] <;>
    rcases read_auth_ops o s with ho | ho <;>
    rw [show (((.ok false : Except AuthError Bool), s,
      (read_auth o s).2)).2.2 = (read_auth o s).2 from rfl, ho] <;> decide

theorem C6_remove_absent_key_witness :
    ("x" : String) ≠ "" ∧
    (read_auth allOk ⟨some (printVal 0 (Json.obj [("y", Json.null)])), none⟩).1 =
      .ok (Json.obj [("y", Json.null)]) ∧
    containsKey [("y", Json.null)] "x" = false ∧
    (remove_provider_auth allOk
        ⟨some (printVal 0 (Json.obj [("y", Json.null)])), none⟩ "x" =
        (.ok false, ⟨some (printVal 0 (Json.obj [("y", Json.null)])), none⟩,
          (read_auth allOk ⟨some (printVal 0 (Json.obj [("y", Json.null)])), none⟩).2) ∧
      FsOp.writeFile ∉ (remove_provider_auth allOk
        ⟨some (printVal 0 (Json.obj [("y", Json.null)])), none⟩ "x").2.2 ∧
      FsOp.copyFile ∉ (remove_provider_auth allOk
        ⟨some (printVal 0 (Json.obj [("y", Json.null)])), none⟩ "x").2.2) :=
  ⟨by decide,
    by rw [read_auth_printVal (Json.obj [("y", Json.null)]) rfl rfl],
    by decide,
    C6_remove_absent_key allOk _ [("y", Json.null)] "x" (by decide)
      (by rw [read_auth_printVal (Json.obj [("y", Json.null)]) rfl rfl]) (by decide)⟩

/-- C7: after two successive successful `write_auth` calls with values `v1`
then `v2`, exactly one backup file exists and its contents are the
serialization of `v1` (the first write's content), while the auth file
contains the serialization of `v2`.  (The model has a single backup slot,
matching the single derived backup path of the source.) -/
theorem C7_double_write_backup (s : FsState) (v1 v2 : Json) :
    (write_auth allOk s v1).1 = .ok () ∧
      (write_auth allOk (write_auth allOk s v1).2.1 v2).1 = .ok () ∧
      (write_auth allOk (write_auth allOk s v1).2.1 v2).2.1.authFile =
        some (printVal 0 v2) ∧
      (write_auth allOk (write_auth allOk s v1).2.1 v2).2.1.backupFile =
        some (printVal 0 v1) := by
  rcases s with ⟨af, bf⟩
  cases af <;> simp [write_auth, allOk]

/-- C8: for every JSON value `v`, a successful `write_auth v` followed by
`read_auth` returns a value equal to `v` — the write/read round trip through
pretty-printed serialization and re-parsing. -/
theorem C8_write_read_round_trip (s : FsState) (v : Json) :
    (write_auth allOk s v).1 = .ok () ∧
      (read_auth allOk (write_auth allOk s v).2.1).1 = .ok v := by
  obtain ⟨h1, h2⟩ := write_auth_allOk s v
  refine ⟨h1, ?_⟩
  rw [read_auth_printVal v h2 rfl]

/-- C9 (counterexample): `write_auth` called with a non-object value (here
the empty JSON array) succeeds and persists a top-level non-object — so a
non-object top-level value can be produced by this module's own operations,
contradicting the claim as stated. -/
theorem C9_counterexample :
    (write_auth allOk ⟨none, none⟩ (Json.arr [])).1 = .ok () ∧
      (write_auth allOk ⟨none, none⟩ (Json.arr [])).2.1.authFile =
        some (printVal 0 (Json.arr [])) ∧
      parseJson (printVal 0 (Json.arr [])) = some (Json.arr []) ∧
      (Json.arr []).isObject = false :=
  ⟨rfl, rfl, parseJson_printVal (Json.arr []), rfl⟩

/-- C9 (amended): `remove_provider_auth` never persists a non-object
top-level value (whenever it changes the auth file, the new contents are the
serialization of an object), and `write_auth` persists exactly the value it
is given — so the always-an-object invariant holds for the removal path and
for every `write_auth` call whose argument is an object, but `write_auth`
with a non-object argument does persist a non-object. -/
theorem C9_persisted_object_invariant (o : FsOracle) (s : FsState) (k : String) :
    ((remove_provider_auth o s k).2.1.authFile = s.authFile ∨
      ∃ l, (remove_provider_auth o s k).2.1.authFile = some (printVal 0 (Json.obj l))) ∧
    ∀ l, (write_auth o s (Json.obj l)).2.1.authFile = s.authFile ∨
      (write_auth o s (Json.obj l)).2.1.authFile = some (printVal 0 (Json.obj l)) := by
  refine ⟨?_, fun l => write_auth_authFile o s (Json.obj l)⟩
  by_cases hk : k = ""
  · left
    unfold remove_provider_auth
    rw [if_pos hk]
  · rcases hr : read_auth o s with ⟨r, ops⟩
    cases r with
    | error e =>
      left
      unfold remove_provider_auth
      rw [if_neg hk, hr]
    | ok auth =>
      cases auth with
      | obj kvs =>
        by_cases hc : containsKey kvs k = true
        · rcases hw : write_auth o s (Json.obj (removeKey kvs k)) with ⟨wr, s2, wops⟩
          have hor := write_auth_authFile o s (Json.obj (removeKey kvs k))
          rw [hw] at hor
          dsimp only at hor
          have hrem : (remove_provider_auth o s k).2.1 = s2 := by
            unfold remove_provider_auth
            rw [if_neg hk, hr]
            dsimp only
            rw [if_pos hc, hw]
            cases wr <;> rfl
          rw [hrem]
          rcases hor with h | h
          · left; exact h
          · right; exact ⟨removeKey kvs k, h⟩
        · left
          unfold remove_provider_auth
          rw [if_neg hk, hr]
          dsimp only
          rw [if_neg hc]
      | null => left; unfold remove_provider_auth; rw [if_neg hk, hr]
      | bool b => left; unfold remove_provider_auth; rw [if_neg hk, hr]
      | num n => left; unfold remove_provider_auth; rw [if_neg hk, hr]
      | str s2 => left; unfold remove_provider_auth; rw [if_neg hk, hr]
      | arr xs => left; unfold remove_provider_auth; rw [if_neg hk, hr]

/-- C10: `read_auth` can also fail with an I/O error (not only a
`ParseError`) when the auth file exists but reading it fails; the underlying
filesystem error is propagated to the caller. -/
theorem C10_read_io_error (o : FsOracle) (s : FsState) (c : List Char)
    (hf : s.authFile = some c) (hro : o.readOk = false) :
    read_auth o s = (.error .ioError, [.existsCheck, .readFile]) := by
  unfold read_auth
  rw [hf]
  dsimp only
  rw [if_neg (by simp [hro])]

theorem C10_read_io_error_witness :
    (⟨some ['a'], none⟩ : FsState).authFile = some ['a'] ∧
    (⟨true, false, true, true⟩ : FsOracle).readOk = false ∧
    read_auth ⟨true, false, true, true⟩ ⟨some ['a'], none⟩ =
      (.error .ioError, [.existsCheck, .readFile]) :=
  ⟨rfl, rfl, C10_read_io_error ⟨true, false, true, true⟩ ⟨some ['a'], none⟩ ['a'] rfl rfl⟩
